import Mathlib

set_option autoImplicit false

/-!
Verification development for the stream_ml core library.

The Python sources are shallowly embedded: Python `str` becomes `List Char`,
insertion-ordered dictionaries become association lists with Python's
update-in-place / append-at-end assignment semantics, arrays become (nested)
lists of scalars, and raised exceptions become `Except PyErr` results.
-/

/-- Python strings, modelled as lists of characters. -/
abbrev Str := List Char

/-- Convenience conversion from a Lean string literal into the model. -/
def str (s : String) : Str := s.toList

/-- Python exceptions raised by the embedded code.  `KeyError`, `TypeError`
and `IndexError` payloads are not modelled; `ValueError` keeps its message. -/
inductive PyErr where
  | valueError (msg : String)
  | keyError
  | typeError
  | indexError
deriving DecidableEq

/-- Lookup in an insertion-ordered dictionary (Python `dict.__getitem__`,
as an `Option`). -/
def dlookup {β : Type} (k : Str) : List (Str × β) → Option β
  | [] => none
  | (k', v) :: rest => if k' = k then some v else dlookup k rest

/-- Python dictionary assignment `m[k] = v`: replaces the value in place if
the key is present (keeping its position), otherwise appends a new entry. -/
def dinsert {β : Type} (m : List (Str × β)) (k : Str) (v : β) : List (Str × β) :=
  match m with
  | [] => [(k, v)]
  | (k', v') :: rest => if k' = k then (k', v) :: rest else (k', v') :: dinsert rest k v

/-- A value stored in a `Params` mapping: either a leaf array value or a
frozen sub-mapping (coordinate → parameter → value), mirroring
`Params = FrozenDict[str, V | FrozenDict[str, V]]` in `params/core.py`. -/
inductive PVal (V : Type) where
  | leaf (v : V)
  | sub (m : List (Str × V))
deriving DecidableEq

/-- The `Params` store of `params/core.py`: an insertion-ordered frozen
mapping whose values may be leaves or one level of sub-mapping. -/
abbrev Params (V : Type) := List (Str × PVal V)

/-- A key accepted by `Params.__getitem__`: a plain string or a tuple of
strings (Python `str | tuple[str, ...]`). -/
inductive PKey where
  | s (k : Str)
  | tup (ks : List Str)
deriving DecidableEq

/-- `Params.__getitem__` (`params/core.py` lines 50-65).  A 1-tuple resolves
as a top-level key; a 2-tuple (`LEN_NAME_TUPLE = 2`, the `(coordinate,
parameter)` name-tuple length, matching the `tuple[str, str]` cast in the
source) resolves through the nested sub-mapping and raises `KeyError` if the
coordinate entry is not itself a mapping; any other tuple length raises
`KeyError`. -/
def Params.getItem {V : Type} (p : Params V) (key : PKey) : Except PyErr (PVal V) :=
  match key with
  | .s k =>
    match dlookup k p with
    | some v => .ok v
    | none => .error .keyError
  | .tup ks =>
    match ks with
    | [k] =>
      match dlookup k p with
      | some v => .ok v
      | none => .error .keyError
    | [k₁, k₂] =>
      match dlookup k₁ p with
      | some (.sub cm) =>
        match dlookup k₂ cm with
        | some v => .ok (.leaf v)
        | none => .error .keyError
      | some (.leaf _) => .error .keyError
      | none => .error .keyError
    | _ => .error .keyError

/-- `Params.flatitems` (`params/core.py` lines 74-81): top-level leaves are
yielded as-is, sub-mapping entries are yielded with the joined key
`f"{k}_{k2}"`. -/
def Params.flatitems {V : Type} (p : Params V) : List (Str × V) :=
  p.flatMap fun kv =>
    match kv.2 with
    | .leaf v => [(kv.1, v)]
    | .sub m => m.map (fun kv2 => (kv.1 ++ '_' :: kv2.1, kv2.2))

/-- `Params.get_prefixed` (`params/core.py` lines 95-99): normalizes the
prefix so it ends with `"."`, keeps the top-level keys starting with the
normalized prefix, and strips it from them. -/
def Params.getPrefixed {V : Type} (p : Params V) (pre : Str) : Params V :=
  let pre' := if pre.getLast? = some '.' then pre else pre ++ [ '.' ]
  (p.filter (fun kv => pre'.isPrefixOf kv.1)).map
    (fun kv => (kv.1.drop pre'.length, kv.2))

/-- `Params.add_prefix` (`params/core.py` lines 101-103): prepends the prefix
string to every top-level key, exactly as given (`f"{prefix}{k}"` — note the
source appends no `"."` here). -/
def Params.addPrefix {V : Type} (p : Params V) (pre : Str) : Params V :=
  p.map (fun kv => (pre ++ kv.1, kv.2))

/-! ## Claims C10 and C5 -/

/-- C10: indexing a `Params` store with a tuple key whose length is neither
1 nor 2 (e.g. the empty tuple or a 3-tuple) raises `KeyError`; the store is a
frozen (immutable) value, so the failed lookup leaves it unchanged. -/
theorem c10_tuple_length_keyerror (V : Type) (p : Params V) (ks : List Str)
    (h1 : ks.length ≠ 1) (h2 : ks.length ≠ 2) :
    Params.getItem p (.tup ks) = .error .keyError := by
  match ks with
  | [] => rfl
  | [k] => exact absurd rfl h1
  | [a, b] => exact absurd rfl h2
  | a :: b :: c :: rest => rfl

/-- Witness for C10: the empty tuple on a concrete one-entry store raises
`KeyError`. -/
theorem c10_tuple_length_keyerror_w :
    Params.getItem ([(str "a", PVal.leaf (1 : ℚ))] : Params ℚ) (.tup []) =
      .error .keyError :=
  c10_tuple_length_keyerror ℚ [(str "a", PVal.leaf (1 : ℚ))] [] (by decide) (by decide)

/-- Counterexample for C5: `add_prefix` prepends the prefix with no `"."`
separator, so for prefix `"a"` the key `"w"` becomes `"aw"` (not `"a.w"`) and
the `get_prefixed "a"` round trip returns the empty store, not the original. -/
theorem c5_no_dot_counterexample :
    Params.addPrefix ([(str "w", PVal.leaf (1 : ℚ))] : Params ℚ) (str "a") =
      [(str "aw", PVal.leaf (1 : ℚ))] ∧
    Params.getPrefixed
        (Params.addPrefix ([(str "w", PVal.leaf (1 : ℚ))] : Params ℚ) (str "a"))
        (str "a") = [] := by
  constructor <;> decide

/-- C5 (amended): `add_prefix` prepends the prefix exactly as given (no dot
added), while `get_prefixed` strips `prefix + "."` (appending the dot itself
only if missing); consequently the round trip
`p.add_prefix(s).get_prefixed(s) = p` holds precisely when `s` already ends
with `"."`. -/
theorem c5_roundtrip_dot (V : Type) (p : Params V) (pre : Str)
    (h : pre.getLast? = some '.') :
    Params.getPrefixed (Params.addPrefix p pre) pre = p := by
  unfold Params.getPrefixed Params.addPrefix
  simp only [h, if_pos rfl]
  induction p with
  | nil => simp
  | cons kv rest ih =>
    simp only [List.map_cons, List.filter_cons]
    have hpre : pre.isPrefixOf (pre ++ kv.1) = true := by
      rw [List.isPrefixOf_iff_prefix]
      exact List.prefix_append pre kv.1
    simp only [hpre, if_pos]
    simp only [List.map_cons, List.drop_left]
    exact congrArg (fun l => (kv.1, kv.2) :: l) ih

/-- Witness for C5 (amended): concrete round trip with a dot-terminated
prefix. -/
theorem c5_roundtrip_dot_w :
    Params.getPrefixed
        (Params.addPrefix ([(str "w", PVal.leaf (1 : ℚ))] : Params ℚ) (str "a."))
        (str "a.") = [(str "w", PVal.leaf (1 : ℚ))] :=
  c5_roundtrip_dot ℚ [(str "w", PVal.leaf (1 : ℚ))] (str "a.") (by decide)

/-! ## Bounds engine (`params/bounds/_base.py`) -/

/-- Scalar model of backend floating-point values extended with the IEEE
infinities: ℚ together with `-∞` (`⊥`) and `+∞` (`⊤`). -/
abbrev ERat := WithBot (WithTop ℚ)

/-- Finite `ERat` value from a rational. -/
def eRat (q : ℚ) : ERat := ((q : WithTop ℚ) : WithBot (WithTop ℚ))

/-- Modelled from the spec: `within_bounds` (from
`stream_ml.core.utils.funcs`, whose source is not under src/) — the
inclusive containment check `lower <= value <= upper` used by the bounds
penalty ("this design uses inclusive bounds"). -/
def within_bounds (v lower upper : ERat) : Bool :=
  decide (lower ≤ v) && decide (v ≤ upper)

/-- Modelled from the spec: `array_at(x, idx).set(v)` (from
`stream_ml.core.utils.compat`, whose source is not under src/) — masked
assignment, returning `x` with `v` written at the positions where the
boolean mask holds. -/
def arrayAtSet (xs : List ERat) (mask : List Bool) (v : ERat) : List ERat :=
  List.zipWith (fun x m => if m then v else x) xs mask

/-- `ParameterBounds` (`params/bounds/_base.py`): a frozen bound with scalar
endpoints governing the flat parameter named by `param_name` — a 1- or
2-tuple of strings (`ParamNameTupleOpts`), `none` when not yet set.  The
scaler and array-namespace machinery is not needed by any claim. -/
structure ParameterBounds where
  lower : ERat
  upper : ERat
  param_name : Option (List Str)
  name : Option Str

/-- `ParameterBounds.logpdf` (`params/bounds/_base.py` lines 76-114): raises
`ValueError` when `param_name` is unset; otherwise builds a zero array the
shape of the governed parameter's value and writes `-∞` at the rows whose
value is not within `[lower, upper]`.  The `current_lnpdf` argument is
accepted but never read — the caller (`ModelBase.ln_prior`) performs the
addition itself.  (The unused `model` argument of the source is omitted; the
`data` argument is likewise unread by the source body.) -/
def ParameterBounds.logpdf (pb : ParameterBounds) (mpars : Params (List ERat))
    (data : List (List ERat)) (current_lnpdf : Option (List ERat)) :
    Except PyErr (List ERat) :=
  match pb.param_name with
  | none => .error (.valueError "need to set param_name")
  | some pn =>
    match Params.getItem mpars (.tup pn) with
    | .error e => .error e
    | .ok (.sub _) => .error .typeError
    | .ok (.leaf vals) =>
      let bp := vals.map (fun _ => (0 : ERat))
      .ok (arrayAtSet bp
        (vals.map (fun v => !(within_bounds v pb.lower pb.upper))) ⊥)

/-- Decidable equality for `Except` results, so witnesses can be settled by
`decide`. -/
instance {ε α : Type} [DecidableEq ε] [DecidableEq α] :
    DecidableEq (Except ε α) := fun x y =>
  match x, y with
  | .ok a, .ok b =>
    if h : a = b then .isTrue (congrArg Except.ok h)
    else .isFalse (fun he => h (Except.ok.inj he))
  | .error a, .error b =>
    if h : a = b then .isTrue (congrArg Except.error h)
    else .isFalse (fun he => h (Except.error.inj he))
  | .ok _, .error _ => .isFalse (fun he => Except.noConfusion he)
  | .error _, .ok _ => .isFalse (fun he => Except.noConfusion he)

/-- Helper: `Params.__getitem__` can only fail with `KeyError`, never with a
`ValueError`. -/
theorem getItem_not_valueError {V : Type} (p : Params V) (k : PKey) (msg : String) :
    Params.getItem p k ≠ .error (.valueError msg) := by
  unfold Params.getItem
  cases k with
  | s k => cases h : dlookup k p <;> simp [h]
  | tup ks =>
    match ks with
    | [] => simp
    | [k] => cases h : dlookup k p <;> simp [h]
    | [k₁, k₂] =>
      cases hv : dlookup k₁ p with
      | none => simp [hv]
      | some v =>
        cases v with
        | leaf x => simp [hv]
        | sub cm => cases h2 : dlookup k₂ cm <;> simp [hv, h2]
    | a :: b :: c :: rest => simp

/-! ## Claims C6 and C4 -/

/-- C6: invoking `logpdf` with `param_name` unset raises the configuration
`ValueError` regardless of the other arguments, and with `param_name` set no
`ValueError` is ever raised (a missing parameter key would be a `KeyError`,
not the configuration error) — being unset is never a silent no-op. -/
theorem c6_param_name_guard (pb : ParameterBounds) (mpars : Params (List ERat))
    (data : List (List ERat)) (cur : Option (List ERat)) :
    (pb.param_name = none →
      pb.logpdf mpars data cur = .error (.valueError "need to set param_name")) ∧
    (∀ pn, pb.param_name = some pn →
      ∀ msg, pb.logpdf mpars data cur ≠ .error (.valueError msg)) := by
  constructor
  · intro h
    simp [ParameterBounds.logpdf, h]
  · intro pn h msg
    simp only [ParameterBounds.logpdf, h]
    cases hg : Params.getItem mpars (.tup pn) with
    | error e =>
      cases e with
      | valueError m =>
        exact absurd hg (getItem_not_valueError mpars (.tup pn) m)
      | keyError => simp
      | typeError => simp
      | indexError => simp
    | ok v => cases v <;> simp

/-- Witness for C6: a concrete bound with unset `param_name` raises the
configuration `ValueError`. -/
theorem c6_param_name_guard_w :
    ParameterBounds.logpdf ⟨0, 1, none, none⟩ [] [] none =
      .error (.valueError "need to set param_name") :=
  (c6_param_name_guard ⟨0, 1, none, none⟩ [] [] none).1 rfl

/-- Helper: the masked `-∞` write over a zero array equals the pointwise
penalty map. -/
theorem arrayAtSet_penalty (l u : ERat) (vals : List ERat) :
    arrayAtSet (vals.map fun _ => (0 : ERat))
        (vals.map fun v => !(within_bounds v l u)) ⊥ =
      vals.map (fun v => if l ≤ v ∧ v ≤ u then (0 : ERat) else ⊥) := by
  unfold arrayAtSet
  induction vals with
  | nil => rfl
  | cons v vs ih =>
    simp only [List.map_cons, List.zipWith_cons_cons, ih]
    congr 1
    by_cases h1 : l ≤ v
    · by_cases h2 : v ≤ u
      · simp [within_bounds, h1, h2]
      · simp [within_bounds, h1, h2]
    · simp [within_bounds, h1]

/-- Helper: evaluation of `logpdf` when `param_name` is set and the governed
parameter resolves to a leaf value array. -/
theorem logpdf_penalty_eval (pb : ParameterBounds) (mpars : Params (List ERat))
    (data : List (List ERat)) (cur : Option (List ERat))
    (pn : List Str) (vals : List ERat)
    (hpn : pb.param_name = some pn)
    (hget : Params.getItem mpars (.tup pn) = .ok (.leaf vals)) :
    pb.logpdf mpars data cur =
      .ok (vals.map (fun v =>
        if pb.lower ≤ v ∧ v ≤ pb.upper then (0 : ERat) else ⊥)) := by
  simp only [ParameterBounds.logpdf, hpn, hget]
  exact congrArg Except.ok (arrayAtSet_penalty pb.lower pb.upper vals)

/-- Helper: `0.5` lies inside the inclusive interval `[0, 1]`. -/
theorem half_in_unit : (0 : ERat) ≤ eRat (1/2) ∧ eRat (1/2) ≤ 1 := by
  constructor
  · unfold eRat
    exact_mod_cast (by norm_num : (0 : ℚ) ≤ 1/2)
  · unfold eRat
    exact_mod_cast (by norm_num : (1/2 : ℚ) ≤ 1)

/-- Helper: `1.5` lies outside the inclusive interval `[0, 1]`. -/
theorem three_halves_not_in_unit : ¬((0 : ERat) ≤ eRat (3/2) ∧ eRat (3/2) ≤ 1) := by
  intro h
  have h2 := h.2
  unfold eRat at h2
  have : (3/2 : ℚ) ≤ 1 := by exact_mod_cast h2
  norm_num at this

/-- Counterexample for C4: `logpdf` does not add `current` — for the bound
`[0, 1]` on `"weight"` with `weight = 0.5` (in bounds) and `current = [5]`,
it returns `[0]`, not `current + 0 = [5]`. -/
theorem c4_current_ignored_counterexample :
    ParameterBounds.logpdf ⟨0, 1, some [str "weight"], none⟩
        [(str "weight", PVal.leaf [eRat (1/2)])] [] (some [eRat 5]) =
      .ok [(0 : ERat)] ∧
    ((Except.ok [eRat 5] : Except PyErr (List ERat)) ≠ .ok [(0 : ERat)]) := by
  constructor
  · rw [logpdf_penalty_eval ⟨0, 1, some [str "weight"], none⟩
        [(str "weight", PVal.leaf [eRat (1/2)])] [] (some [eRat 5])
        [str "weight"] [eRat (1/2)] rfl rfl]
    simp only [List.map_cons, List.map_nil]
    rw [if_pos half_in_unit]
  · intro h
    have h1 : [eRat 5] = [(0 : ERat)] := Except.ok.inj h
    have h2 : eRat 5 = (0 : ERat) := (List.cons.inj h1).1
    have h3 : (5 : ℚ) = 0 := by
      unfold eRat at h2
      exact_mod_cast h2
    norm_num at h3

/-- C4 (amended): for every bound with `param_name` set whose lookup yields
the governed leaf value array, and for every `current` argument, `logpdf`
returns only the penalty array — ignoring `current`, which the caller adds —
with 0 at each row whose value lies in the inclusive interval
`[lower, upper]` and `-∞` at each row whose value does not. -/
theorem c4_penalty (pb : ParameterBounds) (mpars : Params (List ERat))
    (data : List (List ERat)) (cur : Option (List ERat))
    (pn : List Str) (vals : List ERat)
    (hpn : pb.param_name = some pn)
    (hget : Params.getItem mpars (.tup pn) = .ok (.leaf vals)) :
    pb.logpdf mpars data cur =
      .ok (vals.map (fun v =>
        if pb.lower ≤ v ∧ v ≤ pb.upper then (0 : ERat) else ⊥)) :=
  logpdf_penalty_eval pb mpars data cur pn vals hpn hget

/-- Witness for C4 (amended): bound `[0, 1]` on `"weight"`, rows `0.5` and
`1.5`, default `current` — the result is `0` at the first row and `-∞` at the
second, independently per row. -/
theorem c4_penalty_w :
    ParameterBounds.logpdf ⟨0, 1, some [str "weight"], none⟩
        [(str "weight", PVal.leaf [eRat (1/2), eRat (3/2)])] [] none =
      .ok [(0 : ERat), ⊥] := by
  rw [c4_penalty ⟨0, 1, some [str "weight"], none⟩
      [(str "weight", PVal.leaf [eRat (1/2), eRat (3/2)])] [] none
      [str "weight"] [eRat (1/2), eRat (3/2)] rfl rfl]
  simp only [List.map_cons, List.map_nil]
  rw [if_pos half_in_unit, if_neg three_halves_not_in_unit]

/-! ## `CompositeModel` (`src/stream_ml/core.py`) -/

/-- Abstract component model of the early `stream_ml` API
(`stream_ml.base.Model`): only the members consumed by `CompositeModel` are
modelled.  `P` and `D` are the opaque parameter-mapping and data types; an
array is the list of its backend scalars (for `ln_prior` the flattened
elements of the component's result tensor). -/
structure MLModel (P D α : Type) where
  param_names : List (Str × Nat)
  ln_likelihood : P → D → List α
  ln_prior : P → List α

/-- Backend namespace (`import torch as xp`): the elementwise primitives
`CompositeModel` uses. -/
structure NS (α : Type) where
  exp : α → α
  log : α → α

/-- `CompositeModel` stores the mapping of unique component name → model. -/
structure CompositeModel (P D α : Type) where
  models : List (Str × MLModel P D α)

/-- `CompositeModel.__init__` (`core.py` lines 31-37): stores the components
and registers each as a submodule.  It is total: no check of any kind is made
on the components' parameter keys. -/
def CompositeModel.init {P D α : Type} (models : List (Str × MLModel P D α)) :
    CompositeModel P D α := ⟨models⟩

/-- `CompositeModel.param_names` (`core.py` lines 39-42): the dict
comprehension `{k: v for d in self._models.values() for k, v in
d.param_names.items()}` — later components silently override duplicate
keys. -/
def CompositeModel.param_names {P D α : Type} (cm : CompositeModel P D α) :
    List (Str × Nat) :=
  cm.models.foldl
    (fun acc m => m.2.param_names.foldl (fun a kv => dinsert a kv.1 kv.2) acc) []

/-- `torch.stack` followed by `.sum(dim=0)`: elementwise sum of a stack of
equal-length arrays. -/
def sumStack {α : Type} [Add α] : List (List α) → List α
  | [] => []
  | x :: xs => xs.foldl (List.zipWith (fun a b => a + b)) x

/-- `CompositeModel.ln_likelihood` (`core.py` lines 62-83): stack the
exponentials of the per-component log-likelihoods, sum across the component
axis, and take `log` of the sum. -/
def CompositeModel.ln_likelihood {P D α : Type} [Add α] (cm : CompositeModel P D α)
    (xp : NS α) (pars : P) (data : D) : List α :=
  let liks := cm.models.map (fun m => (m.2.ln_likelihood pars data).map xp.exp)
  let lik := sumStack liks
  lik.map xp.log

/-- `CompositeModel.ln_prior` (`core.py` lines 85-97):
`xp.stack([model.ln_prior(pars) for model in ...]).sum()` — `.sum()` with no
axis argument reduces over every element of the stacked tensor, producing a
single scalar. -/
def CompositeModel.ln_prior {P D α : Type} [AddCommMonoid α]
    (cm : CompositeModel P D α) (pars : P) : α :=
  ((cm.models.map (fun m => m.2.ln_prior pars)).flatten).sum

/-- Helper: `dlookup` misses exactly the keys that are not in the dict. -/
theorem dlookup_eq_none {β : Type} (k : Str) (m : List (Str × β)) :
    dlookup k m = none ↔ k ∉ m.map Prod.fst := by
  induction m with
  | nil => simp [dlookup]
  | cons kv rest ih =>
    simp only [dlookup, List.map_cons, List.mem_cons]
    by_cases h : kv.1 = k
    · rw [if_pos h]
      constructor
      · intro hs
        exact Option.noConfusion hs
      · intro hn
        exact absurd (Or.inl h.symm) hn
    · rw [if_neg h, ih]
      constructor
      · intro hn hmem
        rcases hmem with h1 | h2
        · exact h h1.symm
        · exact hn h2
      · intro hn hm
        exact hn (Or.inr hm)

/-- Helper: assigning a fresh key appends the entry at the end. -/
theorem dinsert_fresh {β : Type} (m : List (Str × β)) (k : Str) (v : β)
    (h : dlookup k m = none) : dinsert m k v = m ++ [(k, v)] := by
  induction m with
  | nil => rfl
  | cons kv rest ih =>
    by_cases hk : kv.1 = k
    · simp [dlookup, hk] at h
    · simp only [dlookup, hk, if_false] at h
      simp only [dinsert, hk, if_false, List.cons_append]
      rw [ih h]

/-- Helper: lookup skips a first block in which the key does not occur. -/
theorem dlookup_append_none {β : Type} (k : Str) (m m' : List (Str × β))
    (h : dlookup k m = none) : dlookup k (m ++ m') = dlookup k m' := by
  induction m with
  | nil => rfl
  | cons kv rest ih =>
    by_cases hk : kv.1 = k
    · simp [dlookup, hk] at h
    · simp only [dlookup, hk, if_false] at h
      simp only [List.cons_append, dlookup, hk, if_false]
      exact ih h

/-- Helper: folding dict assignment over entries with fresh, pairwise
distinct keys appends them in order. -/
theorem foldl_dinsert_fresh {β : Type} (l : List (Str × β)) :
    ∀ m : List (Str × β), (∀ kv ∈ l, dlookup kv.1 m = none) →
    (l.map Prod.fst).Nodup →
    l.foldl (fun a kv => dinsert a kv.1 kv.2) m = m ++ l := by
  induction l with
  | nil => intro m _ _; simp
  | cons kv rest ih =>
    intro m hfresh hnodup
    simp only [List.foldl_cons]
    rw [dinsert_fresh m kv.1 kv.2 (hfresh kv (List.mem_cons_self kv rest))]
    have hk_not : kv.1 ∉ rest.map Prod.fst := by
      simp only [List.map_cons, List.nodup_cons] at hnodup
      exact hnodup.1
    have hfresh' : ∀ kv' ∈ rest, dlookup kv'.1 (m ++ [(kv.1, kv.2)]) = none := by
      intro kv' h'
      rw [dlookup_append_none kv'.1 m _ (hfresh kv' (List.mem_cons_of_mem kv h'))]
      have hne : kv.1 ≠ kv'.1 := by
        intro he
        exact hk_not (he ▸ List.mem_map_of_mem Prod.fst h')
      simp [dlookup, hne]
    have hnodup' : (rest.map Prod.fst).Nodup := by
      simp only [List.map_cons, List.nodup_cons] at hnodup
      exact hnodup.2
    rw [ih (m ++ [(kv.1, kv.2)]) hfresh' hnodup']
    simp

/-! ## Claim C1 -/

/-- Counterexample for C1: constructing a `CompositeModel` from two
components that both declare the flat key `"stream_mu"` raises nothing —
construction succeeds, both components are stored, and `param_names` silently
merges the duplicate key (the later component wins). -/
theorem c1_overlap_counterexample :
    (CompositeModel.init
        [(str "stream",
          (⟨[(str "stream_mu", 1)], fun _ _ => [], fun _ => []⟩ : MLModel Unit Unit ℤ)),
         (str "other",
          (⟨[(str "stream_mu", 2)], fun _ _ => [], fun _ => []⟩ :
            MLModel Unit Unit ℤ))]).models.length = 2 ∧
    (CompositeModel.init
        [(str "stream",
          (⟨[(str "stream_mu", 1)], fun _ _ => [], fun _ => []⟩ : MLModel Unit Unit ℤ)),
         (str "other",
          (⟨[(str "stream_mu", 2)], fun _ _ => [], fun _ => []⟩ :
            MLModel Unit Unit ℤ))]).param_names = [(str "stream_mu", 2)] := by
  constructor
  · rfl
  · decide

/-- C1 (amended): `CompositeModel` construction performs no validation of the
components' parameter keys: it succeeds for every pair of components,
overlapping keys included (the merged `param_names` then silently lets the
later component override).  In particular, for components with disjoint flat
parameter keys, construction succeeds and `param_names` is their
concatenation in declaration order. -/
theorem c1_no_construction_check {P D α : Type} (na nb : Str)
    (a b : MLModel P D α)
    (ha : (a.param_names.map Prod.fst).Nodup)
    (hb : (b.param_names.map Prod.fst).Nodup)
    (hdisj : ∀ k ∈ b.param_names.map Prod.fst, k ∉ a.param_names.map Prod.fst) :
    (CompositeModel.init [(na, a), (nb, b)]).models = [(na, a), (nb, b)] ∧
    (CompositeModel.init [(na, a), (nb, b)]).param_names =
      a.param_names ++ b.param_names := by
  refine ⟨rfl, ?_⟩
  unfold CompositeModel.param_names CompositeModel.init
  simp only [List.foldl_cons, List.foldl_nil]
  rw [foldl_dinsert_fresh a.param_names [] (fun kv _ => rfl) ha]
  rw [List.nil_append]
  exact foldl_dinsert_fresh b.param_names a.param_names
    (fun kv h => (dlookup_eq_none kv.1 a.param_names).mpr
      (hdisj kv.1 (List.mem_map_of_mem Prod.fst h)))
    hb

/-- Witness for C1 (amended): two concrete components with disjoint keys
`"stream_mu"` and `"bg_weight"` — construction succeeds with the
concatenated parameter schema. -/
theorem c1_no_construction_check_w :
    (CompositeModel.init
        [(str "stream",
          (⟨[(str "stream_mu", 1)], fun _ _ => [], fun _ => []⟩ : MLModel Unit Unit ℤ)),
         (str "bg",
          (⟨[(str "bg_weight", 1)], fun _ _ => [], fun _ => []⟩ :
            MLModel Unit Unit ℤ))]).param_names =
      [(str "stream_mu", 1), (str "bg_weight", 1)] := by
  rw [(c1_no_construction_check (str "stream") (str "bg")
      ⟨[(str "stream_mu", 1)], fun _ _ => [], fun _ => []⟩
      ⟨[(str "bg_weight", 1)], fun _ _ => [], fun _ => []⟩
      (by decide) (by decide) (by decide)).2]
  rfl

/-! ## Claim C3 -/

/-- C3: for a composite of two components with per-row log-likelihoods `la`
and `lb`, `ln_likelihood` equals `log(exp(la) + exp(lb))` elementwise — the
components are combined by summing exponentiated likelihoods in probability
space — and (under the equal-shape requirement `torch.stack` imposes) the
result has one value per row. -/
theorem c3_mixture_likelihood {P D α : Type} [Add α] (xp : NS α)
    (na nb : Str) (a b : MLModel P D α) (pars : P) (data : D)
    (hlen : (a.ln_likelihood pars data).length = (b.ln_likelihood pars data).length) :
    (CompositeModel.init [(na, a), (nb, b)]).ln_likelihood xp pars data =
      List.zipWith (fun la lb => xp.log (xp.exp la + xp.exp lb))
        (a.ln_likelihood pars data) (b.ln_likelihood pars data) ∧
    ((CompositeModel.init [(na, a), (nb, b)]).ln_likelihood xp pars data).length =
      (a.ln_likelihood pars data).length := by
  have key : (CompositeModel.init [(na, a), (nb, b)]).ln_likelihood xp pars data =
      List.zipWith (fun la lb => xp.log (xp.exp la + xp.exp lb))
        (a.ln_likelihood pars data) (b.ln_likelihood pars data) := by
    unfold CompositeModel.ln_likelihood CompositeModel.init sumStack
    simp only [List.map_cons, List.map_nil, List.foldl_cons, List.foldl_nil]
    rw [List.zipWith_map (fun x y => x + y) xp.exp xp.exp, List.map_zipWith]
  refine ⟨key, ?_⟩
  rw [key, List.length_zipWith, hlen, Nat.min_self]

/-- Witness for C3: a concrete two-component composite over ℤ with an
arbitrary backend namespace. -/
theorem c3_mixture_likelihood_w :
    (CompositeModel.init
        [(str "s", (⟨[], fun _ _ => [1, 2], fun _ => [0]⟩ : MLModel Unit Unit ℤ)),
         (str "b", (⟨[], fun _ _ => [3, 4], fun _ => [0]⟩ : MLModel Unit Unit ℤ))]).ln_likelihood
      ⟨fun x => x + 1, fun x => x * 2⟩ () () = [12, 16] := by
  rw [(c3_mixture_likelihood ⟨fun x => x + 1, fun x => x * 2⟩ (str "s") (str "b")
      ⟨[], fun _ _ => [1, 2], fun _ => [0]⟩ ⟨[], fun _ _ => [3, 4], fun _ => [0]⟩
      () () (by decide)).1]
  decide

/-! ## Claim C2 -/

/-- Counterexample for C2: with two components whose `ln_prior` arrays are
`[1, 2]` and `[3, 4]` (one value per each of two rows), the composite
`ln_prior` is the single scalar `10` — the sum over the whole stack — not the
two-row elementwise sum `[4, 6]` demanded by the claim. -/
theorem c2_scalar_counterexample :
    (CompositeModel.init
        [(str "s", (⟨[], fun _ _ => [], fun _ => [1, 2]⟩ : MLModel Unit Unit ℤ)),
         (str "b", (⟨[], fun _ _ => [], fun _ => [3, 4]⟩ : MLModel Unit Unit ℤ))]).ln_prior
      () = 10 ∧
    List.zipWith (fun x y => x + y)
        ((⟨[], fun _ _ => [], fun _ => [1, 2]⟩ : MLModel Unit Unit ℤ).ln_prior ())
        ((⟨[], fun _ _ => [], fun _ => [3, 4]⟩ : MLModel Unit Unit ℤ).ln_prior ()) =
      [4, 6] := by
  constructor <;> decide

/-- C2 (amended): the composite `ln_prior` is a single scalar — the sum of
every element of every component's `ln_prior` — so for two components it
equals `sum(a.ln_prior) + sum(b.ln_prior)` (which coincides with
`a.ln_prior + b.ln_prior` only when the components return scalars), not an
elementwise per-row array. -/
theorem c2_prior_total_sum {P D α : Type} [AddCommMonoid α]
    (na nb : Str) (a b : MLModel P D α) (pars : P)
    (hlen : (a.ln_prior pars).length = (b.ln_prior pars).length) :
    (CompositeModel.init [(na, a), (nb, b)]).ln_prior pars =
      (a.ln_prior pars).sum + (b.ln_prior pars).sum := by
  unfold CompositeModel.ln_prior CompositeModel.init
  simp [List.sum_append]

/-- Witness for C2 (amended): the `[1, 2]` / `[3, 4]` composite evaluates to
the scalar `1 + 2 + 3 + 4 = 10`. -/
theorem c2_prior_total_sum_w :
    (CompositeModel.init
        [(str "s", (⟨[], fun _ _ => [], fun _ => [1, 2]⟩ : MLModel Unit Unit ℤ)),
         (str "b", (⟨[], fun _ _ => [], fun _ => [3, 4]⟩ : MLModel Unit Unit ℤ))]).ln_prior
      () = 10 := by
  rw [c2_prior_total_sum (str "s") (str "b")
      ⟨[], fun _ _ => [], fun _ => [1, 2]⟩ ⟨[], fun _ _ => [], fun _ => [3, 4]⟩
      () (by decide)]
  decide

/-! ## `ModelBase` validation (`core/base.py`) -/

/-- Modelled from the spec: one `ParamNames` entry (the class lives in
`stream_ml.core.params.names`, whose source is not under src/) —
"parameters dependent on the coordinates are grouped by the coordinate
name", e.g. `('weight', ('phi1', ('mu', 'sigma')))`: either an unconditional
parameter name or a coordinate name with its parameter names. -/
inductive SchemaEntry where
  | plain (s : Str)
  | coord (c : Str) (ps : List Str)
deriving DecidableEq

/-- Coordinate bounds value (`BoundsT`): a pair of scalar endpoints. -/
abbrev BoundsT := ERat × ERat

/-- Python `dict.pop(k)` on an insertion-ordered dict: the dict without the
entry for `k` (dict keys are unique, so removing the first occurrence is
exact). -/
def derase {β : Type} (m : List (Str × β)) (k : Str) : List (Str × β) :=
  match m with
  | [] => []
  | (k', v) :: rest => if k' = k then rest else (k', v) :: derase rest k

/-- One step of the comprehension
`{n: crnt_cbs.pop(n, (-inf, inf)) for n in coord_names}`: pop the coordinate
from the remaining bounds (defaulting to `(-∞, +∞)`) and assign it into the
completed dict. -/
def popStep (acc : List (Str × BoundsT) × List (Str × BoundsT)) (n : Str) :
    List (Str × BoundsT) × List (Str × BoundsT) :=
  match dlookup n acc.1 with
  | some b => (derase acc.1 n, dinsert acc.2 n b)
  | none => (acc.1, dinsert acc.2 n (⊥, ⊤))

/-- The whole comprehension: returns (unconsumed bounds, completed bounds). -/
def popAll (crnt : List (Str × BoundsT)) (coord_names : List Str) :
    List (Str × BoundsT) × List (Str × BoundsT) :=
  coord_names.foldl popStep (crnt, [])

/-- `ModelBase.__post_init__` validation (`core/base.py` lines 167-183):
`param_names` must be non-empty; the provided `coord_bounds` dict is consumed
by popping each coordinate name with default `(-inf, inf)`; any key left over
(a key outside `coord_names`) is an error; on success the completed
`coord_bounds` is stored. -/
def ModelBase.postInitValidate (param_names : List SchemaEntry)
    (coord_names : List Str) (coord_bounds : List (Str × BoundsT)) :
    Except PyErr (List (Str × BoundsT)) :=
  if param_names.isEmpty then
    .error (.valueError "param_names must be specified")
  else
    let res := popAll coord_bounds coord_names
    if res.1.isEmpty then .ok res.2
    else .error (.valueError "coord_bounds contains invalid keys")

/-- Helper: unfolding equation for `dlookup` on a cons cell. -/
theorem dlookup_cons {β : Type} (k k' : Str) (v : β) (rest : List (Str × β)) :
    dlookup k ((k', v) :: rest) = if k' = k then some v else dlookup k rest := rfl

/-- Helper: unfolding equation for `derase` on a cons cell. -/
theorem derase_cons {β : Type} (k k' : Str) (v : β) (rest : List (Str × β)) :
    derase ((k', v) :: rest) k = if k' = k then rest else (k', v) :: derase rest k := rfl

/-- Helper: `derase` yields a sublist. -/
theorem derase_sublist {β : Type} (m : List (Str × β)) (k : Str) :
    List.Sublist (derase m k) m := by
  induction m with
  | nil => exact List.Sublist.refl []
  | cons kv rest ih =>
    obtain ⟨k', v⟩ := kv
    rw [derase_cons]
    by_cases h : k' = k
    · rw [if_pos h]
      exact List.sublist_cons_self (k', v) rest
    · rw [if_neg h]
      exact List.Sublist.cons₂ (k', v) ih

/-- Helper: removing one key does not affect lookups of another. -/
theorem dlookup_derase_ne {β : Type} (k n : Str) (m : List (Str × β))
    (h : k ≠ n) : dlookup k (derase m n) = dlookup k m := by
  induction m with
  | nil => rfl
  | cons kv rest ih =>
    obtain ⟨k', v⟩ := kv
    rw [derase_cons]
    by_cases hk : k' = n
    · rw [if_pos hk, dlookup_cons, if_neg (fun he : k' = k => h (he ▸ hk))]
    · rw [if_neg hk, dlookup_cons, dlookup_cons]
      by_cases hk2 : k' = k
      · rw [if_pos hk2, if_pos hk2]
      · rw [if_neg hk2, if_neg hk2, ih]

/-- Helper: popping an absent key is a no-op. -/
theorem derase_of_none {β : Type} (n : Str) (m : List (Str × β))
    (h : dlookup n m = none) : derase m n = m := by
  induction m with
  | nil => rfl
  | cons kv rest ih =>
    by_cases hk : kv.1 = n
    · simp [dlookup, hk] at h
    · simp only [dlookup, hk, if_false] at h
      simp only [derase, hk, if_false]
      rw [ih h]

/-- Helper: with unique keys, popping a key is filtering it out. -/
theorem derase_eq_filter {β : Type} (n : Str) (m : List (Str × β))
    (h : (m.map Prod.fst).Nodup) :
    derase m n = m.filter (fun kv => !decide (kv.1 = n)) := by
  induction m with
  | nil => rfl
  | cons kv rest ih =>
    obtain ⟨k', v⟩ := kv
    simp only [List.map_cons, List.nodup_cons] at h
    rw [derase_cons, List.filter_cons]
    by_cases hk : k' = n
    · rw [if_pos hk]
      have hc : (!decide (((k', v) : Str × β).1 = n)) = true ↔ False := by
        simp [hk]
      rw [if_neg (by simp [hk])]
      refine (List.filter_eq_self.mpr ?_).symm
      intro kv' h'
      have hne : kv'.1 ≠ n := by
        intro he
        exact h.1 (by rw [hk, ← he]; exact List.mem_map_of_mem Prod.fst h')
      simp [hne]
    · rw [if_neg hk, if_pos (by simp [hk]), ih h.2]

/-- Helper: folding `pop` over a name list filters the dict down to the keys
outside the list (when the dict's keys are unique). -/
theorem foldl_derase_filter {β : Type} (ns : List Str) :
    ∀ m : List (Str × β), (m.map Prod.fst).Nodup →
    ns.foldl (fun c n => derase c n) m =
      m.filter (fun kv => !decide (kv.1 ∈ ns)) := by
  induction ns with
  | nil =>
    intro m _
    simp
  | cons n rest ih =>
    intro m hm
    simp only [List.foldl_cons]
    have hsub : ((derase m n).map Prod.fst).Nodup :=
      hm.sublist ((derase_sublist m n).map Prod.fst)
    rw [ih (derase m n) hsub, derase_eq_filter n m hm, List.filter_filter]
    refine List.filter_congr ?_
    intro kv _
    by_cases h1 : kv.1 = n
    · simp [h1]
    · by_cases h2 : kv.1 ∈ rest
      · simp [h1, h2]
      · simp [h1, h2]

/-- Helper: the unconsumed-bounds component of the fold is the iterated
pop, independent of the completed-dict accumulator. -/
theorem foldl_popStep_fst (ns : List Str) :
    ∀ crnt done : List (Str × BoundsT),
    (ns.foldl popStep (crnt, done)).1 = ns.foldl (fun c n => derase c n) crnt := by
  induction ns with
  | nil =>
    intro crnt done
    rfl
  | cons n rest ih =>
    intro crnt done
    simp only [List.foldl_cons, popStep]
    cases hl : dlookup n crnt with
    | some b => exact ih _ _
    | none =>
      rw [derase_of_none n crnt hl]
      exact ih _ _

/-- Helper: specification of the completion comprehension `popAll`. -/
theorem popAll_spec (ns : List Str) :
    ∀ crnt done : List (Str × BoundsT), ns.Nodup →
    (∀ k ∈ done.map Prod.fst, k ∉ ns) →
    ns.foldl popStep (crnt, done) =
      (ns.foldl (fun c n => derase c n) crnt,
       done ++ ns.map (fun n => (n, (dlookup n crnt).getD (⊥, ⊤)))) := by
  induction ns with
  | nil =>
    intro crnt done _ _
    simp
  | cons n rest ih =>
    intro crnt done hnodup hdone
    have hnr : n ∉ rest := (List.nodup_cons.mp hnodup).1
    have hrest : rest.Nodup := (List.nodup_cons.mp hnodup).2
    have hn_done : dlookup n done = none :=
      (dlookup_eq_none n done).mpr
        (fun hmem => (hdone n hmem) (List.mem_cons_self n rest))
    have hdone' : ∀ x : Str × BoundsT,
        ∀ k ∈ (done ++ [x]).map Prod.fst, x.1 ∉ rest → k ∉ rest := by
      intro x k hk hx
      simp only [List.map_append, List.mem_append, List.map_cons, List.map_nil,
        List.mem_singleton] at hk
      rcases hk with hk | hk
      · exact fun hr => (hdone k hk) (List.mem_cons_of_mem n hr)
      · exact hk ▸ hx
    have hmapcongr :
        rest.map (fun n' => (n', (dlookup n' (derase crnt n)).getD ((⊥ : ERat), (⊤ : ERat)))) =
          rest.map (fun n' => (n', (dlookup n' crnt).getD (⊥, ⊤))) := by
      refine List.map_congr_left ?_
      intro n' h'
      rw [dlookup_derase_ne n' n crnt (fun he => hnr (he ▸ h'))]
    simp only [List.foldl_cons, List.map_cons]
    cases hl : dlookup n crnt with
    | some b =>
      have hstep : popStep (crnt, done) n = (derase crnt n, done ++ [(n, b)]) := by
        simp only [popStep, hl]
        rw [dinsert_fresh done n b hn_done]
      rw [hstep, ih (derase crnt n) (done ++ [(n, b)]) hrest
          (fun k hk => hdone' (n, b) k hk hnr)]
      rw [hmapcongr]
      simp [List.append_assoc]
    | none =>
      have hstep : popStep (crnt, done) n = (crnt, done ++ [(n, (⊥, ⊤))]) := by
        simp only [popStep, hl]
        rw [dinsert_fresh done n (⊥, ⊤) hn_done]
      rw [hstep, ih crnt (done ++ [(n, (⊥, ⊤))]) hrest
          (fun k hk => hdone' (n, (⊥, ⊤)) k hk hnr)]
      rw [derase_of_none n crnt hl]
      simp [List.append_assoc]

/-! ## `unpack_params_from_arr` (`core/base.py` lines 190-208) -/

/-- A flat parameter key (`ParamNameTupleOpts`): a plain name or a
`(coordinate, parameter)` pair. -/
inductive FlatKey where
  | plain (s : Str)
  | pair (c p : Str)
deriving DecidableEq

/-- Modelled from the spec: `ParamNames.flats` (the class lives in
`stream_ml.core.params.names`, whose source is not under src/) — the flat
keys of a hierarchical schema in declaration order, coordinate-scoped
parameters expanded in place. -/
def flats (S : List SchemaEntry) : List FlatKey :=
  S.flatMap fun e =>
    match e with
    | .plain s => [FlatKey.plain s]
    | .coord c ps => ps.map (fun p => FlatKey.pair c p)

/-- The joined single-string form of a flat key, as produced by `flatitems`
(`f"{k}_{k2}"` for pairs). -/
def FlatKey.joined : FlatKey → Str
  | .plain s => s
  | .pair c p => c ++ '_' :: p

/-- `set_param` (`params/core.py` lines 155-173): writes a value at a flat
key, creating the coordinate sub-dict on demand and raising `KeyError` when
the coordinate entry exists but is not a dict. -/
def set_param {V : Type} (m : Params V) (key : FlatKey) (v : V) :
    Except PyErr (Params V) :=
  match key with
  | .plain s => .ok (dinsert m s (.leaf v))
  | .pair c p =>
    match dlookup c m with
    | none => .ok (m ++ [(c, .sub [(p, v)])])
    | some (.sub d) => .ok (dinsert m c (.sub (dinsert d p v)))
    | some (.leaf _) => .error .keyError

/-- `p_arr[:, i : i + 1]`: the `i`-th single-column slice of a 2D array,
kept 2D (Python slicing clamps silently out of range). -/
def colSlice {α : Type} (C : List (List α)) (i : Nat) : List (List α) :=
  C.map (fun r => (r.drop i).take 1)

/-- The loop of `unpack_params_from_arr`:
`for i, k in enumerate(self.param_names.flats): set_param(pars, k,
p_arr[:, i : i + 1])`, threading the enumeration index. -/
def unpackGo {α : Type} (C : List (List α)) :
    List FlatKey → Nat → Params (List (List α)) →
    Except PyErr (Params (List (List α)))
  | [], _, m => .ok m
  | k :: ks, i, m =>
    match set_param m k (colSlice C i) with
    | .error e => .error e
    | .ok m' => unpackGo C ks (i + 1) m'

/-- `ModelBase.unpack_params_from_arr` (`core/base.py` lines 190-208): runs
the enumeration loop over the schema's flat keys starting from the empty
dict, then freezes (`freeze_params` is the identity on this frozen
representation). -/
def ModelBase.unpack_params_from_arr {α : Type} (C : List (List α))
    (S : List SchemaEntry) : Except PyErr (Params (List (List α))) :=
  unpackGo C (flats S) 0 []

/-- Helper: the store `unpack` is expected to build — one leaf per plain
entry, one sub-dict per coordinate entry, with consecutive column slices. -/
def buildSub {α : Type} (C : List (List α)) : List Str → Nat →
    List (Str × List (List α))
  | [], _ => []
  | p :: ps, i => (p, colSlice C i) :: buildSub C ps (i + 1)

/-- Helper: the whole expected store, by schema entry. -/
def build {α : Type} (C : List (List α)) : List SchemaEntry → Nat →
    Params (List (List α))
  | [], _ => []
  | .plain s :: rest, i => (s, .leaf (colSlice C i)) :: build C rest (i + 1)
  | .coord c ps :: rest, i => (c, .sub (buildSub C ps i)) :: build C rest (i + ps.length)

/-- Helper: the flat item list `flatitems` is expected to yield — joined
keys with consecutive column slices. -/
def expectedItems {α : Type} (C : List (List α)) : List FlatKey → Nat →
    List (Str × List (List α))
  | [], _ => []
  | k :: ks, i => (k.joined, colSlice C i) :: expectedItems C ks (i + 1)

/-- The top-level dict key a schema entry owns. -/
def topName : SchemaEntry → Str
  | .plain s => s
  | .coord c _ => c

/-- Well-formedness of one schema entry: a coordinate groups a non-empty,
duplicate-free tuple of parameter names. -/
def entryOk : SchemaEntry → Prop
  | .plain _ => True
  | .coord _ ps => ps.Nodup ∧ ps ≠ []

instance (e : SchemaEntry) : Decidable (entryOk e) :=
  match e with
  | .plain _ => isTrue trivial
  | .coord _ ps => inferInstanceAs (Decidable (ps.Nodup ∧ ps ≠ []))

/-- Helper: overwriting the last entry, whose key is fresh elsewhere. -/
theorem dinsert_append_last {β : Type} (m : List (Str × β)) (c : Str) (x y : β)
    (h : dlookup c m = none) : dinsert (m ++ [(c, x)]) c y = m ++ [(c, y)] := by
  induction m with
  | nil => simp [dinsert]
  | cons kv rest ih =>
    obtain ⟨k', v'⟩ := kv
    rw [dlookup_cons] at h
    by_cases hk : k' = c
    · rw [if_pos hk] at h
      exact absurd h (Option.some_ne_none v')
    · rw [if_neg hk] at h
      simp only [List.cons_append, dinsert, hk, if_false, List.append_eq]
      rw [ih h]

/-- Helper: the last appended entry is found when its key is fresh. -/
theorem dlookup_append_last {β : Type} (m : List (Str × β)) (c : Str) (x : β)
    (h : dlookup c m = none) : dlookup c (m ++ [(c, x)]) = some x := by
  rw [dlookup_append_none c m _ h, dlookup_cons, if_pos rfl]

/-- Helper: unfolding equation for one unpack-loop step. -/
theorem unpackGo_cons {α : Type} (C : List (List α)) (k : FlatKey)
    (ks : List FlatKey) (i : Nat) (m : Params (List (List α))) :
    unpackGo C (k :: ks) i m =
      match set_param m k (colSlice C i) with
      | .error e => .error e
      | .ok m' => unpackGo C ks (i + 1) m' := rfl

/-- Helper: a fresh key stays absent after appending an entry with another
key. -/
theorem dlookup_append_single_ne {β : Type} (k c : Str) (x : β)
    (m : List (Str × β)) (h : dlookup k m = none) (hne : c ≠ k) :
    dlookup k (m ++ [(c, x)]) = none := by
  rw [dlookup_append_none k m _ h, dlookup_cons, if_neg hne]
  rfl

/-- Helper: the run of pair keys of one coordinate extends that coordinate's
sub-dict with consecutive column slices. -/
theorem unpackGo_pairs {α : Type} (C : List (List α)) (c : Str) (ps : List Str) :
    ∀ (i : Nat) (m : Params (List (List α)))
      (d : List (Str × List (List α))) (ks : List FlatKey),
    dlookup c m = none → ps.Nodup → (∀ p ∈ ps, dlookup p d = none) →
    unpackGo C (ps.map (fun p => FlatKey.pair c p) ++ ks) i (m ++ [(c, .sub d)]) =
      unpackGo C ks (i + ps.length) (m ++ [(c, .sub (d ++ buildSub C ps i))]) := by
  induction ps with
  | nil =>
    intro i m d ks hc _ _
    simp [buildSub]
  | cons p ps' ih =>
    intro i m d ks hc hnodup hfresh
    simp only [List.map_cons, List.cons_append]
    have hstep : set_param (m ++ [(c, .sub d)]) (FlatKey.pair c p) (colSlice C i) =
        .ok (m ++ [(c, .sub (d ++ [(p, colSlice C i)]))]) := by
      simp only [set_param, dlookup_append_last m c (.sub d) hc,
        dinsert_fresh d p (colSlice C i) (hfresh p (List.mem_cons_self p ps')),
        dinsert_append_last m c (PVal.sub d)
          (PVal.sub (d ++ [(p, colSlice C i)])) hc]
    rw [unpackGo_cons]
    simp only [hstep]
    have hfresh' : ∀ q ∈ ps', dlookup q (d ++ [(p, colSlice C i)]) = none := by
      intro q h'
      have hq : p ≠ q := fun he => (List.nodup_cons.mp hnodup).1 (he ▸ h')
      exact dlookup_append_single_ne q p _ d
        (hfresh q (List.mem_cons_of_mem p h')) hq
    rw [ih (i + 1) m (d ++ [(p, colSlice C i)]) ks hc
        (List.nodup_cons.mp hnodup).2 hfresh']
    have harr : d ++ [(p, colSlice C i)] ++ buildSub C ps' (i + 1) =
        d ++ buildSub C (p :: ps') i := by
      rw [List.append_assoc]
      rfl
    rw [harr]
    have hidx : i + 1 + ps'.length = i + (p :: ps').length := by
      simp only [List.length_cons]
      omega
    rw [hidx]

/-- Helper: the unpack loop builds the expected store when every schema
entry's top-level name is fresh. -/
theorem unpackGo_build {α : Type} (C : List (List α)) (S : List SchemaEntry) :
    ∀ (i : Nat) (m : Params (List (List α))),
    (S.map topName).Nodup → (∀ e ∈ S, entryOk e) →
    (∀ e ∈ S, dlookup (topName e) m = none) →
    unpackGo C (flats S) i m = .ok (m ++ build C S i) := by
  induction S with
  | nil =>
    intro i m _ _ _
    simp [flats, unpackGo, build]
  | cons e rest ih =>
    intro i m hnodup hok hfresh
    have hnodup' : topName e ∉ rest.map topName ∧ (rest.map topName).Nodup := by
      rw [List.map_cons, List.nodup_cons] at hnodup
      exact hnodup
    have hok' : ∀ e' ∈ rest, entryOk e' :=
      fun e' h' => hok e' (List.mem_cons_of_mem e h')
    cases e with
    | plain s =>
      have hf : flats (.plain s :: rest) = FlatKey.plain s :: flats rest := rfl
      rw [hf, unpackGo_cons]
      have hsfresh : dlookup s m = none :=
        hfresh (.plain s) (List.mem_cons_self _ rest)
      have hstep : set_param m (FlatKey.plain s) (colSlice C i) =
          .ok (m ++ [(s, .leaf (colSlice C i))]) := by
        simp only [set_param]
        rw [dinsert_fresh m s _ hsfresh]
      simp only [hstep]
      have hfresh2 : ∀ e' ∈ rest,
          dlookup (topName e') (m ++ [(s, .leaf (colSlice C i))]) = none := by
        intro e' h'
        refine dlookup_append_single_ne _ s _ m
          (hfresh e' (List.mem_cons_of_mem _ h')) ?_
        intro he
        have hmem : topName e' ∈ List.map topName rest :=
          List.mem_map_of_mem topName h'
        rw [← he] at hmem
        exact hnodup'.1 hmem
      have hih := ih (i + 1) (m ++ [(s, PVal.leaf (colSlice C i))])
        hnodup'.2 hok' hfresh2
      rw [hih]
      simp [build, List.append_assoc]
    | coord c ps =>
      obtain ⟨hpsnodup, hpsne⟩ := hok (.coord c ps) (List.mem_cons_self _ rest)
      cases ps with
      | nil => exact absurd rfl hpsne
      | cons p ps' =>
        have hf : flats (.coord c (p :: ps') :: rest) =
            FlatKey.pair c p ::
              (ps'.map (fun q => FlatKey.pair c q) ++ flats rest) := rfl
        rw [hf, unpackGo_cons]
        have hcfresh : dlookup c m = none :=
          hfresh (.coord c (p :: ps')) (List.mem_cons_self _ rest)
        have hstep : set_param m (FlatKey.pair c p) (colSlice C i) =
            .ok (m ++ [(c, .sub [(p, colSlice C i)])]) := by
          simp only [set_param]
          rw [hcfresh]
        simp only [hstep]
        have hinner : ∀ q ∈ ps', dlookup q [(p, colSlice C i)] = none := by
          intro q h'
          have hq : p ≠ q := fun he => (List.nodup_cons.mp hpsnodup).1 (he ▸ h')
          rw [dlookup_cons, if_neg hq]
          rfl
        rw [unpackGo_pairs C c ps' (i + 1) m [(p, colSlice C i)] (flats rest)
            hcfresh (List.nodup_cons.mp hpsnodup).2 hinner]
        have hsub : ([(p, colSlice C i)] : List (Str × List (List α))) ++
            buildSub C ps' (i + 1) = buildSub C (p :: ps') i := rfl
        rw [hsub]
        have hfresh2 : ∀ e' ∈ rest,
            dlookup (topName e')
              (m ++ [(c, PVal.sub (buildSub C (p :: ps') i))]) = none := by
          intro e' h'
          refine dlookup_append_single_ne _ c _ m
            (hfresh e' (List.mem_cons_of_mem _ h')) ?_
          intro he
          have hmem : topName e' ∈ List.map topName rest :=
            List.mem_map_of_mem topName h'
          rw [← he] at hmem
          exact hnodup'.1 hmem
        have hih := ih (i + 1 + ps'.length)
          (m ++ [(c, PVal.sub (buildSub C (p :: ps') i))])
          hnodup'.2 hok' hfresh2
        rw [hih]
        have hidx : i + 1 + ps'.length = i + (p :: ps').length := by
          simp only [List.length_cons]
          omega
        rw [hidx]
        simp [build, List.append_assoc]

/-- Helper: `flatitems` distributes over store concatenation. -/
theorem flatitems_append {V : Type} (p q : Params V) :
    Params.flatitems (p ++ q) = Params.flatitems p ++ Params.flatitems q := by
  unfold Params.flatitems
  induction p with
  | nil => rfl
  | cons kv rest ih =>
    simp only [List.cons_append, List.flatMap_cons, ih, List.append_assoc]

/-- Helper: `expectedItems` over an appended key list shifts the index. -/
theorem expectedItems_append {α : Type} (C : List (List α))
    (l1 l2 : List FlatKey) :
    ∀ i, expectedItems C (l1 ++ l2) i =
      expectedItems C l1 i ++ expectedItems C l2 (i + l1.length) := by
  induction l1 with
  | nil =>
    intro i
    simp [expectedItems]
  | cons k ks ih =>
    intro i
    simp only [List.cons_append, expectedItems, List.append_eq, ih (i + 1),
      List.length_cons]
    have : i + 1 + ks.length = i + (ks.length + 1) := by omega
    rw [this]

/-- Helper: joining one coordinate's sub-dict yields its expected flat
items. -/
theorem map_buildSub {α : Type} (C : List (List α)) (c : Str) (ps : List Str) :
    ∀ i, (buildSub C ps i).map (fun kv2 => (c ++ '_' :: kv2.1, kv2.2)) =
      expectedItems C (ps.map (fun p => FlatKey.pair c p)) i := by
  induction ps with
  | nil =>
    intro i
    rfl
  | cons p ps' ih =>
    intro i
    simp only [buildSub, List.map_cons, expectedItems, ih (i + 1)]
    rfl

/-- Helper: the expected store flattens to the expected items. -/
theorem flatitems_build {α : Type} (C : List (List α)) (S : List SchemaEntry) :
    ∀ i, Params.flatitems (build C S i) = expectedItems C (flats S) i := by
  induction S with
  | nil =>
    intro i
    rfl
  | cons e rest ih =>
    intro i
    cases e with
    | plain s =>
      show (s, colSlice C i) :: Params.flatitems (build C rest (i + 1)) =
        expectedItems C (FlatKey.plain s :: flats rest) i
      rw [ih (i + 1)]
      rfl
    | coord c ps =>
      show (buildSub C ps i).map (fun kv2 => (c ++ '_' :: kv2.1, kv2.2)) ++
          Params.flatitems (build C rest (i + ps.length)) =
        expectedItems C (ps.map (fun p => FlatKey.pair c p) ++ flats rest) i
      rw [expectedItems_append, map_buildSub C c ps i, ih (i + ps.length),
        List.length_map]

/-- Helper: `expectedItems` is the enumeration of the flat keys with their
column slices. -/
theorem expectedItems_eq_enumFrom {α : Type} (C : List (List α))
    (ks : List FlatKey) :
    ∀ i, expectedItems C ks i =
      (List.enumFrom i ks).map (fun p => ((p.2).joined, colSlice C p.1)) := by
  induction ks with
  | nil =>
    intro i
    rfl
  | cons k ks' ih =>
    intro i
    simp only [expectedItems, List.enumFrom, List.map_cons, ih (i + 1)]

/-! ## Claim C8 -/

/-- C8: for every schema `S` of flat parameter keys (hierarchical entries
with unique top-level names and non-empty duplicate-free parameter groups)
and every 2D raw array whose rows are wide enough, `unpack_params_from_arr`
succeeds and `flatitems` yields exactly `(flats S).length` entries, in
declared order, whose keys are the schema's joined flat keys and whose
values are the corresponding single-column slices, each kept 2D with shape
`(n_rows, 1)`. -/
theorem c8_flat_roundtrip {α : Type} (C : List (List α)) (S : List SchemaEntry)
    (hnodup : (S.map topName).Nodup)
    (hok : ∀ e ∈ S, entryOk e)
    (hcols : ∀ r ∈ C, (flats S).length ≤ r.length) :
    ∃ m, ModelBase.unpack_params_from_arr C S = .ok m ∧
      Params.flatitems m =
        ((flats S).enum).map (fun p => ((p.2).joined, colSlice C p.1)) ∧
      (Params.flatitems m).length = (flats S).length ∧
      ∀ i < (flats S).length,
        (colSlice C i).length = C.length ∧
        ∀ col ∈ colSlice C i, col.length = 1 := by
  refine ⟨build C S 0, ?_, ?_, ?_, ?_⟩
  · unfold ModelBase.unpack_params_from_arr
    rw [unpackGo_build C S 0 [] hnodup hok (fun e _ => rfl)]
    rfl
  · rw [flatitems_build C S 0, expectedItems_eq_enumFrom C (flats S) 0]
    rfl
  · rw [flatitems_build C S 0, expectedItems_eq_enumFrom C (flats S) 0]
    simp [List.enumFrom_length]
  · intro i hi
    constructor
    · simp [colSlice]
    · intro col hcol
      simp only [colSlice, List.mem_map] at hcol
      obtain ⟨r, hr, rfl⟩ := hcol
      rw [List.length_take, List.length_drop]
      have hrl := hcols r hr
      have h1 : 1 ≤ r.length - i := by omega
      omega

/-- Witness for C8: schema `('weight', ('phi2', ('mu', 'sigma')))` over the
concrete 2×3 integer array `[[1,2,3],[4,5,6]]`. -/
theorem c8_flat_roundtrip_w :
    ∃ m, ModelBase.unpack_params_from_arr ([[1, 2, 3], [4, 5, 6]] : List (List ℤ))
        [.plain (str "weight"), .coord (str "phi2") [str "mu", str "sigma"]] =
        .ok m ∧
      Params.flatitems m =
        ((flats [.plain (str "weight"),
          .coord (str "phi2") [str "mu", str "sigma"]]).enum).map
          (fun p => ((p.2).joined,
            colSlice ([[1, 2, 3], [4, 5, 6]] : List (List ℤ)) p.1)) ∧
      (Params.flatitems m).length =
        (flats [.plain (str "weight"),
          .coord (str "phi2") [str "mu", str "sigma"]]).length ∧
      ∀ i < (flats [.plain (str "weight"),
          .coord (str "phi2") [str "mu", str "sigma"]]).length,
        (colSlice ([[1, 2, 3], [4, 5, 6]] : List (List ℤ)) i).length = 2 ∧
        ∀ col ∈ colSlice ([[1, 2, 3], [4, 5, 6]] : List (List ℤ)) i,
          col.length = 1 :=
  c8_flat_roundtrip [[1, 2, 3], [4, 5, 6]]
    [.plain (str "weight"), .coord (str "phi2") [str "mu", str "sigma"]]
    (by decide) (by decide) (by decide)

/-! ## `Data` (`stream_mapper/core/_data.py`) -/

/-- The labelled-data container (`Data`, `_data.py`): a 2D array (rows =
observations) paired with the tuple of column names. -/
structure Data (α : Type) where
  array : List (List α)
  names : List Str
deriving DecidableEq

/-- The `_n2k` name → column-index map, as a lookup (first index of the
name; names are unique by the container's invariant). -/
def n2k : List Str → Str → Option Nat
  | [], _ => none
  | n :: rest, k => if n = k then some 0 else (n2k rest k).map (fun j => j + 1)

/-- A row key of a compound `__getitem__` tuple: an integer row index or a
row slice `a:b`. -/
inductive RowKey where
  | idx (i : Nat)
  | rslice (a b : Nat)
deriving DecidableEq

/-- A column key of a compound `__getitem__` tuple: an integer (raw path), a
name, a tuple/list of names, a list of integer indices, or an integer
slice. -/
inductive ColKey where
  | cint (j : Nat)
  | cstr (s : Str)
  | cstrs (ks : List Str)
  | cints (js : List Nat)
  | cslice (a b : Nat)
deriving DecidableEq

/-- The polymorphic result of `Data.__getitem__`: a new `Data`, a raw
scalar, or a raw 1D array. -/
inductive GetRes (α : Type) where
  | data (d : Data α)
  | rawScalar (x : α)
  | raw1 (xs : List α)
deriving DecidableEq

/-- Whether a `GetRes` is a wrapped `Data`. -/
def GetRes.isData {α : Type} : GetRes α → Bool
  | .data _ => true
  | _ => false

/-- Whether a column key is a bare integer (the raw-return path of
`_data.py` lines 296-297). -/
def ColKey.isInt : ColKey → Bool
  | .cint _ => true
  | _ => false

/-- Effectful elementwise map (a Python `for` loop that may raise). -/
def mapE {α β : Type} (f : α → Except PyErr β) : List α → Except PyErr (List β)
  | [] => .ok []
  | x :: xs =>
    match f x with
    | .error e => .error e
    | .ok y =>
      match mapE f xs with
      | .error e => .error e
      | .ok ys => .ok (y :: ys)

/-- `_parse_key_elt` (`_data.py` lines 416-446) composed with the numpy
column resolution: the list of column indices a (non-integer) column key
denotes.  A name resolves through `_n2k` (`KeyError` when missing), a string
tuple/list resolves elementwise, an integer list stands as is, and a slice
clamps to the column count. -/
def resolveCols {α : Type} (d : Data α) : ColKey → Except PyErr (List Nat)
  | .cint j => .ok [j]
  | .cstr s =>
    match n2k d.names s with
    | some j => .ok [j]
    | none => .error .keyError
  | .cstrs ks =>
    mapE (fun k =>
      match n2k d.names k with
      | some j => .ok j
      | none => .error .keyError) ks
  | .cints js => .ok js
  | .cslice a b => .ok (List.range' a (min b d.names.length - a))

/-- The names of the selected columns (`_data.py` lines 309-318): a slice
slices `names`, a name yields itself, a string tuple yields itself, and
integer indices look the names up. -/
def selNames {α : Type} (d : Data α) : ColKey → Except PyErr (List Str)
  | .cint j =>
    match d.names.get? j with
    | some nm => .ok [nm]
    | none => .error .indexError
  | .cstr s => .ok [s]
  | .cstrs ks => .ok ks
  | .cints js =>
    mapE (fun j =>
      match d.names.get? j with
      | some nm => .ok nm
      | none => .error .indexError) js
  | .cslice a b => .ok ((d.names.drop a).take (b - a))

/-- Selection of the given column indices out of one row (numpy advanced
indexing; out of range raises). -/
def selectRowCols {α : Type} (r : List α) (js : List Nat) : Except PyErr (List α) :=
  mapE (fun j =>
    match r.get? j with
    | some x => .ok x
    | none => .error .indexError) js

/-- The compound-key path of `Data.__getitem__` (`_data.py` lines 299-320)
for a non-integer column key: index the underlying array with
`(row_key, parsed_column_key)`, normalize a 1D result (an integer row key
drops the row axis) back to 2D via `array[None, :]`, and wrap with the
selected names. -/
def getCompound {α : Type} (d : Data α) (rk : RowKey) (ck : ColKey) :
    Except PyErr (Data α) :=
  match resolveCols d ck with
  | .error e => .error e
  | .ok js =>
    match rk with
    | .idx i =>
      match d.array.get? i with
      | none => .error .indexError
      | some r =>
        match selectRowCols r js with
        | .error e => .error e
        | .ok xs =>
          match selNames d ck with
          | .error e => .error e
          | .ok nms => .ok ⟨[xs], nms⟩
    | .rslice a b =>
      match mapE (fun r => selectRowCols r js) ((d.array.drop a).take (b - a)) with
      | .error e => .error e
      | .ok sel =>
        match selNames d ck with
        | .error e => .error e
        | .ok nms => .ok ⟨sel, nms⟩

/-- `Data.__getitem__` with a plain integer key (`_data.py` lines 286-287):
`type(self)(self.array[None, key, :], names=self.names)` — the selected row
kept 2D. -/
def Data.getRow {α : Type} (d : Data α) (i : Nat) : Except PyErr (Data α) :=
  match d.array.get? i with
  | some r => .ok ⟨[r], d.names⟩
  | none => .error .indexError

/-- `Data.__getitem__` with a compound `(row_key, column_key)` tuple: an
integer column key returns the raw array element(s) (`_data.py` lines
296-297); any other column key returns a `Data` via the normalized compound
path. -/
def Data.getItemPair {α : Type} (d : Data α) (rk : RowKey) (ck : ColKey) :
    Except PyErr (GetRes α) :=
  match ck, rk with
  | .cint j, .idx i =>
    match d.array.get? i with
    | some r =>
      match r.get? j with
      | some x => .ok (.rawScalar x)
      | none => .error .indexError
    | none => .error .indexError
  | .cint j, .rslice a b =>
    match mapE (fun r =>
        match r.get? j with
        | some x => .ok x
        | none => .error .indexError) ((d.array.drop a).take (b - a)) with
    | .error e => .error e
    | .ok xs => .ok (.raw1 xs)
  | _, _ => (getCompound d rk ck).map GetRes.data

/-- Helper: a successful `mapE` preserves length. -/
theorem mapE_length {α β : Type} (f : α → Except PyErr β) :
    ∀ (l : List α) (res : List β), mapE f l = .ok res → res.length = l.length := by
  intro l
  induction l with
  | nil =>
    intro res h
    cases h
    rfl
  | cons x xs ih =>
    intro res h
    unfold mapE at h
    split at h
    · cases h
    · split at h
      · cases h
      · cases h
        simp [ih _ (by assumption)]

/-- Helper: a non-integer column key goes through the compound `Data`
path. -/
theorem getItemPair_not_int {α : Type} (d : Data α) (rk : RowKey) (ck : ColKey)
    (h : ColKey.isInt ck = false) :
    d.getItemPair rk ck = (getCompound d rk ck).map GetRes.data := by
  cases ck with
  | cint j => exact absurd h (by simp [ColKey.isInt])
  | cstr s => cases rk <;> rfl
  | cstrs ks => cases rk <;> rfl
  | cints js => cases rk <;> rfl
  | cslice a b => cases rk <;> rfl

/-- The name at a column index (total form of `self.names[i]`, meaningful
whenever the index is in range). -/
def nameAt {α : Type} (d : Data α) (j : Nat) : Str := (d.names.get? j).getD []

/-- The names the four-way branch at `_data.py` lines 309-318 must select
for each column-key form: a slice slices `names`, a single name or a name
tuple yields itself, and integer indices select the corresponding names. -/
def namesSpec {α : Type} (d : Data α) : ColKey → List Str → Prop
  | .cint _, _ => False
  | .cstr s, nms => nms = [s]
  | .cstrs ks, nms => nms = ks
  | .cints js, nms => nms = js.map (fun j => nameAt d j)
  | .cslice a b, nms => nms = (d.names.drop a).take (b - a)

/-- Helper: every element of a successful `mapE` comes from applying the
function to some source element. -/
theorem mapE_mem {α β : Type} (f : α → Except PyErr β) :
    ∀ (l : List α) (res : List β), mapE f l = .ok res →
    ∀ y ∈ res, ∃ x ∈ l, f x = .ok y := by
  intro l
  induction l with
  | nil =>
    intro res h y hy
    cases h
    exact absurd hy (List.not_mem_nil y)
  | cons x xs ih =>
    intro res h y hy
    unfold mapE at h
    split at h
    · cases h
    · split at h
      · cases h
      · cases h
        rcases List.mem_cons.mp hy with rfl | hmem
        · exact ⟨x, List.mem_cons_self x xs, by assumption⟩
        · obtain ⟨x', hx', hfx'⟩ := ih _ (by assumption) y hmem
          exact ⟨x', List.mem_cons_of_mem x hx', hfx'⟩

/-- Helper: a successful name lookup over integer indices yields exactly the
corresponding names. -/
theorem mapE_nameAt {α : Type} (d : Data α) :
    ∀ (js : List Nat) (nms : List Str),
    mapE (fun j =>
      match d.names.get? j with
      | some nm => .ok nm
      | none => .error .indexError) js = .ok nms →
    nms = js.map (fun j => nameAt d j) := by
  intro js
  induction js with
  | nil =>
    intro nms h
    cases h
    rfl
  | cons j js' ih =>
    intro nms h
    unfold mapE at h
    cases hg : d.names.get? j with
    | none =>
      simp only [hg] at h
      cases h
    | some nm =>
      simp only [hg] at h
      cases hrec : mapE (fun j =>
          match d.names.get? j with
          | some nm => .ok nm
          | none => .error .indexError) js' with
      | error e => simp only [hrec] at h; cases h
      | ok ys =>
        simp only [hrec] at h
        injection h with h2
        subst h2
        rw [List.map_cons, ← ih ys hrec]
        have hnm : nameAt d j = nm := by
          unfold nameAt
          rw [hg]
          rfl
        rw [hnm]

/-- Helper: when both the column resolution and the names branch succeed for
a non-integer column key, the names are exactly the spec's selected names
and there are as many of them as selected columns. -/
theorem selNames_ok_spec {α : Type} (d : Data α) (ck : ColKey) (nms : List Str)
    (js : List Nat) (hck : ColKey.isInt ck = false)
    (hjs : resolveCols d ck = .ok js) (hnms : selNames d ck = .ok nms) :
    namesSpec d ck nms ∧ nms.length = js.length := by
  cases ck with
  | cint j => simp [ColKey.isInt] at hck
  | cstr s =>
    simp only [selNames] at hnms
    injection hnms with he
    subst he
    simp only [resolveCols] at hjs
    cases hn : n2k d.names s with
    | none => simp only [hn] at hjs; cases hjs
    | some j =>
      simp only [hn] at hjs
      cases hjs
      exact ⟨rfl, rfl⟩
  | cstrs ks =>
    simp only [selNames] at hnms
    injection hnms with he
    subst he
    simp only [resolveCols] at hjs
    exact ⟨rfl, (mapE_length _ _ _ hjs).symm⟩
  | cints js0 =>
    simp only [resolveCols] at hjs
    injection hjs with hj
    subst hj
    simp only [selNames] at hnms
    have hmap := mapE_nameAt d js0 nms hnms
    refine ⟨hmap, ?_⟩
    rw [hmap, List.length_map]
  | cslice a b =>
    simp only [selNames] at hnms
    cases hnms
    simp only [resolveCols] at hjs
    cases hjs
    refine ⟨rfl, ?_⟩
    rw [List.length_take, List.length_drop, List.length_range']
    rcases Nat.le_total b d.names.length with hle | hle
    · rw [Nat.min_eq_left (Nat.sub_le_sub_right hle a), Nat.min_eq_left hle]
    · rw [Nat.min_eq_right (Nat.sub_le_sub_right hle a), Nat.min_eq_right hle]

/-- Helper: full specification of the compound path with an integer row key:
exactly one row (the 1D result is normalized by `array[None, :]`), the row as
wide as the selected columns, and the spec's selected names. -/
theorem getCompound_idx_spec {α : Type} (d : Data α) (i : Nat) (ck : ColKey)
    (dd : Data α) (hck : ColKey.isInt ck = false)
    (h : getCompound d (.idx i) ck = .ok dd) :
    ∃ js, resolveCols d ck = .ok js ∧ dd.array.length = 1 ∧
      (∀ row ∈ dd.array, row.length = js.length) ∧
      namesSpec d ck dd.names ∧ dd.names.length = js.length := by
  unfold getCompound at h
  cases hjs : resolveCols d ck with
  | error e => simp only [hjs] at h; cases h
  | ok js =>
    simp only [hjs] at h
    cases hr : d.array.get? i with
    | none => simp only [hr] at h; cases h
    | some r =>
      simp only [hr] at h
      cases hsel : selectRowCols r js with
      | error e => simp only [hsel] at h; cases h
      | ok xs =>
        simp only [hsel] at h
        cases hnms : selNames d ck with
        | error e => simp only [hnms] at h; cases h
        | ok nms =>
          simp only [hnms] at h
          injection h with h2
          subst h2
          obtain ⟨hspec, hlen⟩ := selNames_ok_spec d ck nms js hck hjs hnms
          refine ⟨js, rfl, rfl, ?_, hspec, hlen⟩
          intro row hrow
          rw [List.mem_singleton] at hrow
          subst hrow
          unfold selectRowCols at hsel
          exact mapE_length _ _ _ hsel

/-- Helper: full specification of the compound path with a row slice: the
slice's (clamped) number of rows, each row as wide as the selected columns,
and the spec's selected names. -/
theorem getCompound_rslice_spec {α : Type} (d : Data α) (a b : Nat)
    (ck : ColKey) (dd : Data α) (hck : ColKey.isInt ck = false)
    (h : getCompound d (.rslice a b) ck = .ok dd) :
    ∃ js, resolveCols d ck = .ok js ∧
      dd.array.length = min (b - a) (d.array.length - a) ∧
      (∀ row ∈ dd.array, row.length = js.length) ∧
      namesSpec d ck dd.names ∧ dd.names.length = js.length := by
  unfold getCompound at h
  cases hjs : resolveCols d ck with
  | error e => simp only [hjs] at h; cases h
  | ok js =>
    simp only [hjs] at h
    cases hsel : mapE (fun r => selectRowCols r js)
        ((d.array.drop a).take (b - a)) with
    | error e => simp only [hsel] at h; cases h
    | ok sel =>
      simp only [hsel] at h
      cases hnms : selNames d ck with
      | error e => simp only [hnms] at h; cases h
      | ok nms =>
        simp only [hnms] at h
        injection h with h2
        subst h2
        obtain ⟨hspec, hlen⟩ := selNames_ok_spec d ck nms js hck hjs hnms
        refine ⟨js, rfl, ?_, ?_, hspec, hlen⟩
        · show sel.length = min (b - a) (d.array.length - a)
          rw [mapE_length _ _ _ hsel]
          simp [List.length_take, List.length_drop]
        · intro row hrow
          obtain ⟨x, hx, hfx⟩ := mapE_mem _ _ _ hsel row hrow
          unfold selectRowCols at hfx
          exact mapE_length _ _ _ hfx

/-! ## Claim C9 -/

/-- Counterexample for C9: a compound key whose row part selects one row but
whose column part is a bare integer returns a raw scalar, not a `Data` of
shape `(1, 1)` — `d[0, 1]` on the 3×4 array is the raw element `1`. -/
theorem c9_int_pair_counterexample :
    Data.getItemPair
        (⟨[[0, 1, 2, 3], [4, 5, 6, 7], [8, 9, 10, 11]],
          [str "a", str "b", str "c", str "d"]⟩ : Data ℤ)
        (.idx 0) (.cint 1) = .ok (.rawScalar 1) ∧
    (Data.getItemPair
        (⟨[[0, 1, 2, 3], [4, 5, 6, 7], [8, 9, 10, 11]],
          [str "a", str "b", str "c", str "d"]⟩ : Data ℤ)
        (.idx 0) (.cint 1)).map GetRes.isData = .ok false := by
  constructor <;> decide

/-- C9 (amended): every single-row selection that returns a `Data` is 2D of
shape `(1, n_cols')` with the correspondingly selected names: `d[i]` is the
`Data` with array `[row i]` and unchanged names; a compound key with integer
row part — or the one-row slice `a : a+1` — and a non-integer column part
(name, name tuple, integer list, or slice) yields a `Data` with exactly one
row, every row exactly as wide as the selected columns, and names equal to
the spec's selection for that column-key form (`namesSpec`: a slice slices
`names`, a name or name tuple yields itself, integer indices select the
corresponding names).  A compound key with a bare integer column part
instead returns the raw scalar/array — the documented raw path. -/
theorem c9_row_selection (α : Type) (d : Data α) :
    (∀ i r, d.array.get? i = some r → d.getRow i = .ok ⟨[r], d.names⟩) ∧
    (∀ i ck res, ColKey.isInt ck = false →
      d.getItemPair (.idx i) ck = .ok res →
      ∃ dd js, res = .data dd ∧ resolveCols d ck = .ok js ∧
        dd.array.length = 1 ∧ (∀ row ∈ dd.array, row.length = js.length) ∧
        namesSpec d ck dd.names ∧ dd.names.length = js.length) ∧
    (∀ a ck res, ColKey.isInt ck = false → a < d.array.length →
      d.getItemPair (.rslice a (a + 1)) ck = .ok res →
      ∃ dd js, res = .data dd ∧ resolveCols d ck = .ok js ∧
        dd.array.length = 1 ∧ (∀ row ∈ dd.array, row.length = js.length) ∧
        namesSpec d ck dd.names ∧ dd.names.length = js.length) := by
  refine ⟨?_, ?_, ?_⟩
  · intro i r h
    unfold Data.getRow
    rw [h]
  · intro i ck res hck hres
    rw [getItemPair_not_int d (.idx i) ck hck] at hres
    cases hgc : getCompound d (.idx i) ck with
    | error e =>
      rw [hgc] at hres
      cases hres
    | ok dd =>
      rw [hgc] at hres
      cases hres
      obtain ⟨js, hjs, h1, h2, h3, h4⟩ := getCompound_idx_spec d i ck dd hck hgc
      exact ⟨dd, js, rfl, hjs, h1, h2, h3, h4⟩
  · intro a ck res hck ha hres
    rw [getItemPair_not_int d (.rslice a (a + 1)) ck hck] at hres
    cases hgc : getCompound d (.rslice a (a + 1)) ck with
    | error e =>
      rw [hgc] at hres
      cases hres
    | ok dd =>
      rw [hgc] at hres
      cases hres
      obtain ⟨js, hjs, h1, h2, h3, h4⟩ :=
        getCompound_rslice_spec d a (a + 1) ck dd hck hgc
      refine ⟨dd, js, rfl, hjs, ?_, h2, h3, h4⟩
      rw [h1]
      have hone : a + 1 - a = 1 := by omega
      rw [hone, Nat.min_eq_left (by omega)]

/-- Witness for C9 (amended): on the spec's 3×4 scenario array, `d[0]` is the
2D single row with unchanged names; `d[0, 1:3]` is the one-row `Data`
`[[1, 2]]` named `("b", "c")` (slice branch); and `d[0:1, ("a", "b")]` is the
one-row `Data` `[[0, 1]]` named `("a", "b")` (name-tuple branch). -/
theorem c9_row_selection_w :
    Data.getRow
        (⟨[[0, 1, 2, 3], [4, 5, 6, 7], [8, 9, 10, 11]],
          [str "a", str "b", str "c", str "d"]⟩ : Data ℤ) 0 =
      .ok ⟨[[0, 1, 2, 3]], [str "a", str "b", str "c", str "d"]⟩ ∧
    (∃ dd js, (GetRes.data (⟨[[1, 2]], [str "b", str "c"]⟩ : Data ℤ)) = .data dd ∧
      resolveCols
        (⟨[[0, 1, 2, 3], [4, 5, 6, 7], [8, 9, 10, 11]],
          [str "a", str "b", str "c", str "d"]⟩ : Data ℤ) (.cslice 1 3) = .ok js ∧
      dd.array.length = 1 ∧ (∀ row ∈ dd.array, row.length = js.length) ∧
      namesSpec
        (⟨[[0, 1, 2, 3], [4, 5, 6, 7], [8, 9, 10, 11]],
          [str "a", str "b", str "c", str "d"]⟩ : Data ℤ) (.cslice 1 3) dd.names ∧
      dd.names.length = js.length) ∧
    (∃ dd js, (GetRes.data (⟨[[0, 1]], [str "a", str "b"]⟩ : Data ℤ)) = .data dd ∧
      resolveCols
        (⟨[[0, 1, 2, 3], [4, 5, 6, 7], [8, 9, 10, 11]],
          [str "a", str "b", str "c", str "d"]⟩ : Data ℤ)
        (.cstrs [str "a", str "b"]) = .ok js ∧
      dd.array.length = 1 ∧ (∀ row ∈ dd.array, row.length = js.length) ∧
      namesSpec
        (⟨[[0, 1, 2, 3], [4, 5, 6, 7], [8, 9, 10, 11]],
          [str "a", str "b", str "c", str "d"]⟩ : Data ℤ)
        (.cstrs [str "a", str "b"]) dd.names ∧
      dd.names.length = js.length) := by
  refine ⟨?_, ?_, ?_⟩
  · exact (c9_row_selection ℤ
      ⟨[[0, 1, 2, 3], [4, 5, 6, 7], [8, 9, 10, 11]],
        [str "a", str "b", str "c", str "d"]⟩).1 0 [0, 1, 2, 3] (by decide)
  · exact (c9_row_selection ℤ
      ⟨[[0, 1, 2, 3], [4, 5, 6, 7], [8, 9, 10, 11]],
        [str "a", str "b", str "c", str "d"]⟩).2.1 0 (.cslice 1 3)
      (.data ⟨[[1, 2]], [str "b", str "c"]⟩) (by decide) (by decide)
  · exact (c9_row_selection ℤ
      ⟨[[0, 1, 2, 3], [4, 5, 6, 7], [8, 9, 10, 11]],
        [str "a", str "b", str "c", str "d"]⟩).2.2 0 (.cstrs [str "a", str "b"])
      (.data ⟨[[0, 1]], [str "a", str "b"]⟩) (by decide) (by decide) (by decide)

/-! ## Claim C7 -/

/-- C7: `ModelBase` construction raises `ValueError` when `param_names` is
empty, raises `ValueError` when `coord_bounds` contains a key outside
`coord_names`, and otherwise succeeds with the completed `coord_bounds`
mapping exactly the names of `coord_names` in order, each coordinate without
explicit bounds getting `(-∞, +∞)`. -/
theorem c7_post_init_validation (pn : List SchemaEntry) (cns : List Str)
    (cbs : List (Str × BoundsT)) :
    (pn = [] →
      ModelBase.postInitValidate pn cns cbs =
        .error (.valueError "param_names must be specified")) ∧
    (pn ≠ [] → (cbs.map Prod.fst).Nodup →
      ∀ k b, (k, b) ∈ cbs → k ∉ cns →
      ModelBase.postInitValidate pn cns cbs =
        .error (.valueError "coord_bounds contains invalid keys")) ∧
    (pn ≠ [] → (cbs.map Prod.fst).Nodup → cns.Nodup →
      (∀ kv ∈ cbs, kv.1 ∈ cns) →
      ModelBase.postInitValidate pn cns cbs =
        .ok (cns.map (fun n => (n, (dlookup n cbs).getD (⊥, ⊤))))) := by
  refine ⟨?_, ?_, ?_⟩
  · intro h
    subst h
    rfl
  · intro hpn hnodup k b hmem hout
    have hne : ¬pn.isEmpty := by
      cases pn with
      | nil => exact absurd rfl hpn
      | cons x xs => simp
    simp only [ModelBase.postInitValidate, hne, if_false, popAll]
    have hleft : (cns.foldl (fun c n => derase c n) cbs) =
        cbs.filter (fun kv => !decide (kv.1 ∈ cns)) :=
      foldl_derase_filter cns cbs hnodup
    have hmem' : (k, b) ∈ cbs.filter (fun kv => !decide (kv.1 ∈ cns)) := by
      refine List.mem_filter.mpr ⟨hmem, ?_⟩
      simp [hout]
    have hfst : (cns.foldl popStep (cbs, [])).1 =
        cbs.filter (fun kv => !decide (kv.1 ∈ cns)) := by
      rw [foldl_popStep_fst cns cbs [], hleft]
    rw [hfst]
    have : ¬(cbs.filter (fun kv => !decide (kv.1 ∈ cns))).isEmpty := by
      intro hemp
      rw [List.isEmpty_iff] at hemp
      rw [hemp] at hmem'
      exact List.not_mem_nil (k, b) hmem'
    simp [this]
  · intro hpn hnodup hcn hsub
    have hne : ¬pn.isEmpty := by
      cases pn with
      | nil => exact absurd rfl hpn
      | cons x xs => simp
    simp only [ModelBase.postInitValidate, hne, if_false, popAll]
    rw [popAll_spec cns cbs [] hcn (by simp)]
    rw [foldl_derase_filter cns cbs hnodup]
    have hempty : cbs.filter (fun kv => !decide (kv.1 ∈ cns)) = [] := by
      refine List.filter_eq_nil_iff.mpr ?_
      intro kv hkv
      simp [hsub kv hkv]
    simp [hempty]

/-- Witness for C7: the three branches at concrete inputs — empty
`param_names` errors, a stray `"phi3"` bounds key errors, and a valid model
completes `"phi2"` with `(-∞, +∞)`. -/
theorem c7_post_init_validation_w :
    ModelBase.postInitValidate [] [str "phi2"] [] =
      .error (.valueError "param_names must be specified") ∧
    ModelBase.postInitValidate [.plain (str "weight")] [str "phi2"]
        [(str "phi3", (⊥, ⊤))] =
      .error (.valueError "coord_bounds contains invalid keys") ∧
    ModelBase.postInitValidate [.plain (str "weight")] [str "phi2"] [] =
      .ok [(str "phi2", (⊥, ⊤))] := by
  refine ⟨?_, ?_, ?_⟩
  · exact (c7_post_init_validation [] [str "phi2"] []).1 rfl
  · exact (c7_post_init_validation [.plain (str "weight")] [str "phi2"]
      [(str "phi3", (⊥, ⊤))]).2.1 (by decide) (by decide) (str "phi3") (⊥, ⊤)
      (by decide) (by decide)
  · rw [(c7_post_init_validation [.plain (str "weight")] [str "phi2"] []).2.2
      (by decide) (by decide) (by decide) (by decide)]
    rfl
